import Mathlib

/-!
Verification of the lotw-exporter ADIF pipeline
(`internal/adif` : `Parse`, `parseRecord`; `internal/collector` : `Collector.fetch`).

Go strings are modelled as lists of characters (`Str`).  Go's `map[string]string`
record is modelled as an association list with overwrite-on-assign semantics
(`recSet`), Go's `map[string]bool` set as an insertion-ordered duplicate-free
list (`setInsert`), and Go's `map[string]float64` counter map as an association
list (`mapInc`).  A Go runtime panic (slice bounds out of range) is modelled by
the value `none` of an `Option` result.  Bounded recursions are written with an
explicit fuel argument; every recursive call consumes at least one character of
the input, so fuel `input.length + 1` is always sufficient, and fuel-irrelevance
lemmas (`parseRecordLoop_fuel_irrel`, `tokenizeLoop_fuel_irrel`) certify this.
-/

abbrev Str := List Char

/-- Go `strings.ToLower`, character-wise (the markers of interest are ASCII,
where Go's byte-level lowering agrees with character-wise lowering). -/
def toLowerStr (s : Str) : Str := s.map Char.toLower

/-- Go `strings.ToUpper`, character-wise. -/
def toUpperStr (s : Str) : Str := s.map Char.toUpper

/-- Go `strings.Index`: the first index at which `pat` occurs as a contiguous
substring, `none` when absent (Go returns `-1`). -/
def indexOfSub (pat : Str) : Str → Option Nat
  | [] => if pat = [] then some 0 else none
  | a :: l => if pat.isPrefixOf (a :: l) then some 0 else (indexOfSub pat l).map (· + 1)

/-- Go `strings.Split` with a one-character separator
(`strings.Split(s, ":")` on a string with no empty separator). -/
def goPartsOn (c : Char) : Str → List Str
  | [] => [[]]
  | a :: l =>
    if a = c then [] :: goPartsOn c l
    else
      match goPartsOn c l with
      | [] => [[a]]
      | h :: t => (a :: h) :: t

/-- Value of a run of decimal digits with accumulator; `none` on a non-digit. -/
def digitsValAux : Str → Nat → Option Nat
  | [], acc => some acc
  | c :: l, acc => if c.isDigit then digitsValAux l (acc * 10 + (c.toNat - 48)) else none

/-- Value of a non-empty run of decimal digits. -/
def digitsVal (s : Str) : Option Nat :=
  if s = [] then none else digitsValAux s 0

/-- Go `strconv.Atoi`: optional sign followed by one or more decimal digits,
with the 64-bit `int` range check (out-of-range input is an error in Go). -/
def goAtoi (s : Str) : Option Int :=
  match s with
  | '+' :: r => (digitsVal r).bind (fun n => if n ≤ 2 ^ 63 - 1 then some (n : Int) else none)
  | '-' :: r => (digitsVal r).bind (fun n => if n ≤ 2 ^ 63 then some (-(n : Int)) else none)
  | r => (digitsVal r).bind (fun n => if n ≤ 2 ^ 63 - 1 then some (n : Int) else none)

/-- `adif.Record`: Go `map[string]string`, modelled as an association list with
at most one binding per key (maintained by `recSet`). -/
abbrev Record := List (Str × Str)

/-- Go map assignment `rec[k] = v`: any previous binding of `k` is replaced. -/
def recSet (r : Record) (k v : Str) : Record :=
  (r.filter (fun p => !decide (p.1 = k))) ++ [(k, v)]

/-- Go map read `rec[k]` (zero value `""` when the key is absent). -/
def recGet (r : Record) (k : Str) : Str :=
  match r.find? (fun p => decide (p.1 = k)) with
  | some p => p.2
  | none => []

/-- Go comma-ok map read: whether the key is present. -/
def recHas (r : Record) (k : Str) : Bool :=
  r.any (fun p => decide (p.1 = k))

/-- The scanning loop of `adif.parseRecord`.  One iteration: find the next `<`,
find the following `>`, split the enclosed content on `:`; a tag with fewer
than two segments or a non-integer length segment is skipped (scanning resumes
after the `>`); otherwise `length` characters after the `>` are taken as the
value, with `dataEnd` clamped to the remaining length when it overruns.  The
Go slice `input[dataStart:dataEnd]` panics when `dataStart > dataEnd` (which
happens exactly for a negative parsed length); that panic is the `none` result.
Fuel: every iteration drops at least one character, so `input.length + 1`
iterations always reach the end. -/
def parseRecordLoop : Nat → Str → Record → Option Record
  | 0, _, rec => some rec
  | fuel + 1, input, rec =>
    match indexOfSub ['<'] input with
    | none => some rec
    | some start =>
      match indexOfSub ['>'] (input.drop start) with
      | none => some rec
      | some e0 =>
        let e := start + e0
        let tagContent := (input.drop (start + 1)).take (e - (start + 1))
        let parts := goPartsOn ':' tagContent
        let fieldName := toUpperStr (parts.headD [])
        if parts.length < 2 then
          parseRecordLoop fuel (input.drop (e + 1)) rec
        else
          match goAtoi (parts.getD 1 []) with
          | none => parseRecordLoop fuel (input.drop (e + 1)) rec
          | some len =>
            let dataStart : Int := (e : Int) + 1
            let dataEnd0 : Int := dataStart + len
            let dataEnd : Int :=
              if dataEnd0 > (input.length : Int) then (input.length : Int) else dataEnd0
            if dataEnd < dataStart then none
            else
              let value := (input.drop (e + 1)).take (dataEnd - dataStart).toNat
              parseRecordLoop fuel (input.drop dataEnd.toNat) (recSet rec fieldName value)

/-- `adif.parseRecord` (its Go `error` result is always `nil`; `none` here is
the slice-bounds panic, not an error return). -/
def parseRecord (text : Str) : Option Record :=
  parseRecordLoop (text.length + 1) text []

/-- The case-insensitive end-of-record marker searched by the split function. -/
def eorChars : Str := ['<', 'e', 'o', 'r', '>']

/-- The case-insensitive end-of-header marker searched by `Parse`. -/
def eohChars : Str := ['<', 'e', 'o', 'h', '>']

/-- The `bufio.Scanner` split function of `adif.Parse`, iterated over the whole
stream: each token is the data before the first case-insensitive `<eor>`, the
scanner advances past the marker; at end of input a non-empty remainder is
yielded as a final token and an empty remainder ends the scan.  Fuel: each
marker step drops at least five characters. -/
def tokenizeLoop : Nat → Str → List Str
  | 0, _ => []
  | fuel + 1, s =>
    match indexOfSub eorChars (toLowerStr s) with
    | some i => s.take i :: tokenizeLoop fuel (s.drop (i + 5))
    | none => if s.isEmpty then [] else [s]

/-- The record tokenizer: the split-function loop at sufficient fuel. -/
def tokenize (s : Str) : List Str := tokenizeLoop (s.length + 1) s

/-- Go `unicode.IsSpace` on the Latin-1 range (the range relevant here). -/
def goIsSpace (c : Char) : Bool :=
  c == ' ' || c == '\t' || c == '\n' || c == Char.ofNat 11 || c == Char.ofNat 12 ||
    c == '\r' || c == Char.ofNat 133 || c == Char.ofNat 160

/-- Go `strings.TrimSpace`. -/
def trimSpace (s : Str) : Str :=
  ((s.dropWhile goIsSpace).reverse.dropWhile goIsSpace).reverse

/-- The header strip in `adif.Parse`: if the case-insensitive `<eoh>` marker
occurs in the fragment, everything up to and including it is discarded. -/
def stripEOH (t : Str) : Str :=
  match indexOfSub eohChars (toLowerStr t) with
  | some i => t.drop (i + 5)
  | none => t

/-- The per-token loop of `adif.Parse`: trim each token, skip empty ones,
strip a header marker, decode the record, and keep it when non-empty.
`parseRecord`'s error result is always `nil`, so the `continue`-on-error
branch never fires; a decoder panic (`none`) aborts the whole run. -/
def processTokens : List Str → Option (List Record)
  | [] => some []
  | t :: ts =>
    let text := trimSpace t
    if text.isEmpty then processTokens ts
    else
      match parseRecord (stripEOH text) with
      | none => none
      | some rec =>
        match processTokens ts with
        | none => none
        | some rs => some (if 0 < rec.length then rec :: rs else rs)

/-- `adif.Parse` on an in-memory stream.  (Its scanner-error return arises only
when a single token exceeds the 50MB scanner buffer; that environmental failure
is modelled as the `parseErr` fetch input below, not here.) -/
def Parse (s : Str) : Option (List Record) :=
  processTokens (tokenize s)

/-- Go `map[string]bool` used as a set (`dxccConfirmed[dxcc] = true`):
insertion-ordered, duplicate-free key list (only membership and size are
observed by the code). -/
def setInsert (s : List Str) (k : Str) : List Str :=
  if k ∈ s then s else s ++ [k]

/-- Go counter-map increment `m[k]++` (missing key reads as zero). -/
def mapInc (m : List (Str × Nat)) (k : Str) : List (Str × Nat) :=
  if m.any (fun p => decide (p.1 = k)) then
    m.map (fun p => if p.1 = k then (p.1, p.2 + 1) else p)
  else m ++ [(k, 1)]

/-- Prometheus `GaugeVec.WithLabelValues(...).Inc()`: a fresh label pair starts
at zero and is incremented to one. -/
def vecInc (v : List ((Str × Str) × Nat)) (k : Str × Str) : List ((Str × Str) × Nat) :=
  if v.any (fun p => decide (p.1 = k)) then
    v.map (fun p => if p.1 = k then (p.1, p.2 + 1) else p)
  else v ++ [(k, 1)]

/-- Prometheus `GaugeVec.WithLabelValues(...).Set(c)`. -/
def vecSet (v : List ((Str × Str) × Nat)) (k : Str × Str) (c : Nat) :
    List ((Str × Str) × Nat) :=
  if v.any (fun p => decide (p.1 = k)) then
    v.map (fun p => if p.1 = k then (p.1, c) else p)
  else v ++ [(k, c)]

def bandK : Str := ['B', 'A', 'N', 'D']
def modeK : Str := ['M', 'O', 'D', 'E']
def qslRcvdK : Str := ['Q', 'S', 'L', '_', 'R', 'C', 'V', 'D']
def dxccK : Str := ['D', 'X', 'C', 'C']
def tsK : Str := "APP_LOTW_QSO_TIMESTAMP".toList
def qsoDateK : Str := "QSO_DATE".toList

/-- The date-bucket selection in `Collector.fetch`: the first ten characters of
`APP_LOTW_QSO_TIMESTAMP` when that field is present with at least ten
characters, else `QSO_DATE` reformatted from `YYYYMMDD` to `YYYY-MM-DD` when it
has exactly eight characters, else the empty string. -/
def dateBucket (rec : Record) : Str :=
  if recHas rec tsK = true ∧ 10 ≤ (recGet rec tsK).length then
    (recGet rec tsK).take 10
  else
    let raw := recGet rec qsoDateK
    if raw.length = 8 then
      raw.take 4 ++ '-' :: (raw.drop 4).take 2 ++ '-' :: (raw.drop 6).take 2
    else []

/-- The in-cycle aggregation accumulators of `Collector.fetch`: the two
(band, mode) gauge vectors it increments and the two local Go maps
(`dxccConfirmed`, `dateCounts`). -/
structure AggState where
  qsoTotal : List ((Str × Str) × Nat)
  qslTotal : List ((Str × Str) × Nat)
  dxccConfirmed : List Str
  dateCounts : List (Str × Nat)
deriving DecidableEq, Repr

def aggInit : AggState := ⟨[], [], [], []⟩

/-- One iteration of the per-record loop in `Collector.fetch`. -/
def aggStep (st : AggState) (rec : Record) : AggState :=
  let band := recGet rec bandK
  let mode := recGet rec modeK
  let st1 := { st with qsoTotal := vecInc st.qsoTotal (band, mode) }
  let st2 :=
    if toUpperStr (recGet rec qslRcvdK) = ['Y'] then
      { st1 with
        qslTotal := vecInc st1.qslTotal (band, mode),
        dxccConfirmed :=
          if recHas rec dxccK = true ∧ recGet rec dxccK ≠ [] then
            setInsert st1.dxccConfirmed (recGet rec dxccK)
          else st1.dxccConfirmed }
    else st1
  let d := dateBucket rec
  if d ≠ [] then
    { st2 with dateCounts := mapInc st2.dateCounts (d ++ '|' :: band) }
  else st2

/-- The history population loop of `Collector.fetch`: each `date|band` key with
exactly two `|`-separated parts becomes a `(date, band)` series.  (Go iterates
the map in unspecified order; distinct keys with two parts yield distinct label
pairs, so the resulting gauge state does not depend on the order.) -/
def histFromDateCounts (m : List (Str × Nat)) : List ((Str × Str) × Nat) :=
  m.foldl
    (fun h kv =>
      let parts := goPartsOn '|' kv.1
      if parts.length = 2 then vecSet h (parts.getD 0 [], parts.getD 1 []) kv.2 else h)
    []

/-- The published metric state of the `Collector` (one field per gauge that the
claims mention). -/
structure MetricsState where
  qsoTotal : List ((Str × Str) × Nat)
  qslTotal : List ((Str × Str) × Nat)
  qsoHistory : List ((Str × Str) × Nat)
  dxccCount : Nat
  scrapeDuration : Int
  scrapeSuccess : Nat
  lastFetch : Int
deriving DecidableEq, Repr

/-- The outcome of the environmental stages of one fetch cycle:
`fetchErr` — `client.FetchReport` failed; `readErr` — `io.ReadAll` failed;
`parseErr` — `adif.Parse` returned its scanner error (a token exceeding the
50MB buffer); `ok body` — the downloaded report body. -/
inductive FetchInput where
  | fetchErr
  | readErr
  | parseErr
  | ok (body : Str)

/-- `Collector.fetch` as a state transition on the published metrics.
`duration` is the measured cycle duration and `now` the completion time.
On any failed stage only `scrapeDuration` and `scrapeSuccess` are written.
On success the three gauge vectors are `Reset` and rebuilt from the records,
the entity count is the size of `dxccConfirmed`, and the history is populated
from `dateCounts`.  `none` is the propagated `parseRecord` panic. -/
def fetch (st : MetricsState) (inp : FetchInput) (duration now : Int) :
    Option MetricsState :=
  let st1 := { st with scrapeDuration := duration }
  match inp with
  | .fetchErr => some { st1 with scrapeSuccess := 0 }
  | .readErr => some { st1 with scrapeSuccess := 0 }
  | .parseErr => some { st1 with scrapeSuccess := 0 }
  | .ok body =>
    match Parse body with
    | none => none
    | some recs =>
      let ag := recs.foldl aggStep aggInit
      some { st1 with
        scrapeSuccess := 1
        lastFetch := now
        qsoTotal := ag.qsoTotal
        qslTotal := ag.qslTotal
        dxccCount := ag.dxccConfirmed.length
        qsoHistory := histFromDateCounts ag.dateCounts }

/-- The records that the confirmation branch of `Collector.fetch` adds a DXCC
for: `QSL_RCVD` uppercases to `Y` and `DXCC` is present and non-empty.  The
listed values (with multiplicity, in record order) of those records' `DXCC`
fields. -/
def confirmedDxccs (recs : List Record) : List Str :=
  (recs.filter (fun r =>
    decide (toUpperStr (recGet r qslRcvdK) = ['Y'] ∧ recHas r dxccK = true ∧
      recGet r dxccK ≠ []))).map (fun r => recGet r dxccK)

/-- The concatenation of (block, marker) pieces into one input stream. -/
def joinBlocks : List (Str × Str) → Str
  | [] => []
  | p :: ps => p.1 ++ p.2 ++ joinBlocks ps

/-! ### Basic facts about the string helpers -/

theorem indexOfSub_cons_self {pat : Str} {l : Str} (h : pat.isPrefixOf l = true) :
    ∀ a rest, l = a :: rest → indexOfSub pat l = some 0 := by
  intro a rest hl
  subst hl
  simp [indexOfSub, h]

theorem infix_of_indexOfSub {pat : Str} :
    ∀ {s : Str} {i : Nat}, indexOfSub pat s = some i → pat <:+: s := by
  intro s
  induction s with
  | nil =>
    intro i h
    simp only [indexOfSub] at h
    split at h
    · next hp => subst hp; exact List.infix_rfl
    · exact absurd h (by simp)
  | cons a l ih =>
    intro i h
    simp only [indexOfSub] at h
    split at h
    · next hp =>
      exact (( List.isPrefixOf_iff_prefix.mp hp).isInfix)
    · next hp =>
      rcases Option.map_eq_some'.mp h with ⟨j, hj, _⟩
      rcases ih hj with ⟨s₁, s₂, hs⟩
      exact ⟨a :: s₁, s₂, by simp [← hs]⟩

theorem indexOfSub_none_of_absent {pat s : Str} (h : ¬ pat <:+: s) :
    indexOfSub pat s = none := by
  cases hi : indexOfSub pat s with
  | none => rfl
  | some i => exact absurd (infix_of_indexOfSub hi) h

/-- First occurrence of a single character sits right after a prefix free of it. -/
theorem indexOfSub_char_boundary (c : Char) :
    ∀ (pre rest : Str), c ∉ pre → indexOfSub [c] (pre ++ c :: rest) = some pre.length := by
  intro pre
  induction pre with
  | nil =>
    intro rest _
    simp [indexOfSub, List.isPrefixOf]
  | cons a pre ih =>
    intro rest h
    have ha : a ≠ c := fun hac => h (by simp [hac])
    have h' : c ∉ pre := fun hc => h (by simp [hc])
    simp only [List.cons_append, indexOfSub, List.isPrefixOf, List.isPrefixOf_nil_left,
      Bool.and_true, List.append_eq]
    rw [if_neg (by simp [ha.symm]), ih rest h']
    simp

/-- A pattern that is a prefix of `x ++ y` with `x` non-empty already occurs
inside `x ++ y.take (pat.length - 1)`. -/
theorem prefix_straddle {pat x y : Str} (hx : x ≠ []) (h : pat <+: x ++ y) :
    pat <+: x ++ y.take (pat.length - 1) := by
  have hxlen : 1 ≤ x.length := by
    cases x with
    | nil => exact absurd rfl hx
    | cons a l => simp
  have htake : pat = (x ++ y).take pat.length := List.prefix_iff_eq_take.mp h
  have hsub : pat.length - x.length ≤ pat.length - 1 := by omega
  have : (x ++ y).take pat.length = (x ++ y.take (pat.length - 1)).take pat.length := by
    rw [List.take_append_eq_append_take, List.take_append_eq_append_take,
      List.take_take]
    congr 1
    rw [Nat.min_eq_left hsub]
  rw [this] at htake
  exact List.prefix_iff_eq_take.mpr htake

/-- First occurrence of a non-empty pattern that starts `post` and does not
occur earlier (not even straddling the boundary) is at `pre.length`. -/
theorem indexOfSub_boundary {pat : Str} (hne : pat ≠ []) :
    ∀ (pre post : Str), pat <+: post →
      ¬ pat <:+: (pre ++ post.take (pat.length - 1)) →
      indexOfSub pat (pre ++ post) = some pre.length := by
  intro pre
  induction pre with
  | nil =>
    intro post hp _
    cases post with
    | nil =>
      rcases hp with ⟨t, ht⟩
      cases pat with
      | nil => exact absurd rfl hne
      | cons a l => simp at ht
    | cons b post' =>
      rw [List.nil_append]
      exact indexOfSub_cons_self ( List.isPrefixOf_iff_prefix.mpr hp) b post' rfl
  | cons a pre ih =>
    intro post hp hno
    have hstep : ¬ pat.isPrefixOf (a :: pre ++ post) = true := by
      intro hpre
      apply hno
      have : pat <+: (a :: pre) ++ post.take (pat.length - 1) :=
        prefix_straddle (by simp) ( List.isPrefixOf_iff_prefix.mp hpre)
      exact this.isInfix
    have hno' : ¬ pat <:+: (pre ++ post.take (pat.length - 1)) := by
      intro hinf
      apply hno
      rcases hinf with ⟨s₁, s₂, hs⟩
      exact ⟨a :: s₁, s₂, by simp [← hs]⟩
    simp only [List.cons_append, indexOfSub, List.append_eq]
    rw [if_neg (by simpa using hstep), ih post hp hno']
    simp

theorem goPartsOn_of_not_mem {c : Char} : ∀ {s : Str}, c ∉ s → goPartsOn c s = [s] := by
  intro s
  induction s with
  | nil => intro _; rfl
  | cons a l ih =>
    intro h
    have ha : a ≠ c := fun hac => h (by simp [hac])
    have h' : c ∉ l := fun hc => h (by simp [hc])
    simp only [goPartsOn, if_neg ha, ih h']

theorem goPartsOn_append {c : Char} :
    ∀ {a : Str} (b : Str), c ∉ a → goPartsOn c (a ++ c :: b) = a :: goPartsOn c b := by
  intro a
  induction a with
  | nil => intro b _; simp [goPartsOn]
  | cons x a ih =>
    intro b h
    have hx : x ≠ c := fun hxc => h (by simp [hxc])
    have h' : c ∉ a := fun hc => h (by simp [hc])
    simp only [List.cons_append, goPartsOn, if_neg hx, List.append_eq]
    rw [ih b h']

/-! ### The decoder loop: fuel adequacy -/

theorem parseRecordLoop_nil (fuel : Nat) (rec : Record) :
    parseRecordLoop fuel [] rec = some rec := by
  cases fuel with
  | zero => rfl
  | succ f => simp [parseRecordLoop, indexOfSub]

/-- Every iteration of the decoder loop consumes at least one character, so any
fuel beyond the input length computes the same result. -/
theorem parseRecordLoop_fuel_irrel :
    ∀ (f g : Nat) (input : Str) (rec : Record), input.length < f → input.length < g →
      parseRecordLoop f input rec = parseRecordLoop g input rec := by
  intro f
  induction f with
  | zero => intro g input rec hf _; exact absurd hf (by omega)
  | succ f ih =>
    intro g input rec hf hg
    cases g with
    | zero => exact absurd hg (by omega)
    | succ g =>
      cases hin : input with
      | nil => rw [parseRecordLoop_nil, parseRecordLoop_nil]
      | cons a l =>
        have hlen : 1 ≤ input.length := by rw [hin]; simp
        rw [← hin]
        cases hlt : indexOfSub ['<'] input with
        | none => simp only [parseRecordLoop, hlt]
        | some start =>
          cases hgt : indexOfSub ['>'] (input.drop start) with
          | none => simp only [parseRecordLoop, hlt, hgt]
          | some e0 =>
            simp only [parseRecordLoop, hlt, hgt]
            by_cases hp :
                (goPartsOn ':'
                  ((input.drop (start + 1)).take (start + e0 - (start + 1)))).length < 2
            · rw [if_pos hp, if_pos hp]
              exact ih g (input.drop (start + e0 + 1)) rec
                (by simp only [List.length_drop]; omega)
                (by simp only [List.length_drop]; omega)
            · rw [if_neg hp, if_neg hp]
              cases hat : goAtoi
                  ((goPartsOn ':'
                    ((input.drop (start + 1)).take (start + e0 - (start + 1)))).getD 1 []) with
              | none =>
                simp only [hat]
                exact ih g (input.drop (start + e0 + 1)) rec
                  (by simp only [List.length_drop]; omega)
                  (by simp only [List.length_drop]; omega)
              | some len =>
                simp only [hat]
                by_cases hq :
                    (if ((start + e0 : Nat) : Int) + 1 + len > (input.length : Int)
                      then (input.length : Int)
                      else ((start + e0 : Nat) : Int) + 1 + len) <
                      ((start + e0 : Nat) : Int) + 1
                · rw [if_pos hq, if_pos hq]
                · rw [if_neg hq, if_neg hq]
                  apply ih
                  · simp only [List.length_drop]
                    by_cases hc : ((start + e0 : Nat) : Int) + 1 + len > (input.length : Int) <;>
                      [rw [if_pos hc] at hq ⊢; rw [if_neg hc] at hq ⊢] <;> omega
                  · simp only [List.length_drop]
                    by_cases hc : ((start + e0 : Nat) : Int) + 1 + len > (input.length : Int) <;>
                      [rw [if_pos hc] at hq ⊢; rw [if_neg hc] at hq ⊢] <;> omega

theorem drop_append_add (l₁ l₂ : List Char) (n : Nat) :
    (l₁ ++ l₂).drop (l₁.length + n) = l₂.drop n := by
  rw [List.drop_append_eq_append_drop]
  simp

theorem indexOfSub_head (c : Char) (xs : Str) : indexOfSub [c] (c :: xs) = some 0 := by
  simp [indexOfSub, List.isPrefixOf]

/-! ### One symbolic iteration of the decoder loop -/

/-- A tag whose content `t` (no `>` inside) has fewer than two `:`-segments or a
non-integer length segment is skipped: the loop continues right after the `>`
with the record unchanged. -/
theorem parseRecordLoop_skip_step (t rest : Str) (rec : Record) (fuel : Nat)
    (ht : '>' ∉ t)
    (hbad : (goPartsOn ':' t).length < 2 ∨ goAtoi ((goPartsOn ':' t).getD 1 []) = none) :
    parseRecordLoop (fuel + 1) ('<' :: (t ++ '>' :: rest)) rec =
      parseRecordLoop fuel rest rec := by
  have hlt : indexOfSub ['<'] ('<' :: (t ++ '>' :: rest)) = some 0 := indexOfSub_head _ _
  have hgt : indexOfSub ['>'] (('<' :: (t ++ '>' :: rest)).drop 0) = some (t.length + 1) := by
    rw [List.drop_zero]
    have hpre : '>' ∉ ('<' :: t) := by
      intro h
      rcases List.mem_cons.mp h with h | h
      · exact absurd h.symm (by decide)
      · exact ht h
    have := indexOfSub_char_boundary '>' ('<' :: t) rest hpre
    simpa using this
  simp only [parseRecordLoop, hlt, hgt]
  have htake : (('<' :: (t ++ '>' :: rest)).drop (0 + 1)).take (0 + (t.length + 1) - (0 + 1)) =
      t := by
    simp only [Nat.zero_add, List.drop_succ_cons, List.drop_zero, Nat.add_sub_cancel]
    exact List.take_left t ('>' :: rest)
  have hdrop : ('<' :: (t ++ '>' :: rest)).drop (0 + (t.length + 1) + 1) = rest := by
    simp only [Nat.zero_add, List.drop_succ_cons]
    have : t.length + 1 = t.length + 1 := rfl
    calc (t ++ '>' :: rest).drop (t.length + 1) = ('>' :: rest).drop 1 := by
          rw [← drop_append_add t ('>' :: rest) 1]
        _ = rest := by simp
  rw [htake, hdrop]
  rcases hbad with hbad | hbad
  · rw [if_pos hbad]
  · by_cases hp : (goPartsOn ':' t).length < 2
    · rw [if_pos hp]
    · rw [if_neg hp]
      simp only [hbad]

/-- A well-formed tag head `<name:lenStr>` with parsed non-negative length `L`
consumes `min L (remaining length)` characters after the `>` as the field value
(clamping, never extending) and binds the uppercased name to it. -/
theorem parseRecordLoop_tag_step (name lenStr tail : Str) (rec : Record) (fuel : Nat) (L : Int)
    (hn1 : ':' ∉ name) (hn2 : '>' ∉ name) (hl1 : ':' ∉ lenStr) (hl2 : '>' ∉ lenStr)
    (hL : goAtoi lenStr = some L) (hL0 : 0 ≤ L) :
    parseRecordLoop (fuel + 1) ('<' :: (name ++ ':' :: (lenStr ++ '>' :: tail))) rec =
      parseRecordLoop fuel (tail.drop (min L.toNat tail.length))
        (recSet rec (toUpperStr name) (tail.take (min L.toNat tail.length))) := by
  have hassoc : '<' :: (name ++ ':' :: (lenStr ++ '>' :: tail)) =
      ('<' :: (name ++ ':' :: lenStr)) ++ '>' :: tail := by
    simp
  have hlt : indexOfSub ['<'] ('<' :: (name ++ ':' :: (lenStr ++ '>' :: tail))) = some 0 :=
    indexOfSub_head _ _
  have hpre : '>' ∉ ('<' :: (name ++ ':' :: lenStr)) := by
    intro h
    rcases List.mem_cons.mp h with h | h
    · exact absurd h.symm (by decide)
    · rcases List.mem_append.mp h with h | h
      · exact hn2 h
      · rcases List.mem_cons.mp h with h | h
        · exact absurd h.symm (by decide)
        · exact hl2 h
  have hgt : indexOfSub ['>'] (('<' :: (name ++ ':' :: (lenStr ++ '>' :: tail))).drop 0) =
      some (name.length + lenStr.length + 2) := by
    rw [List.drop_zero, hassoc]
    have := indexOfSub_char_boundary '>' ('<' :: (name ++ ':' :: lenStr)) tail hpre
    rw [this]
    simp
    omega
  simp only [parseRecordLoop, hlt, hgt]
  have htake : (('<' :: (name ++ ':' :: (lenStr ++ '>' :: tail))).drop (0 + 1)).take
      (0 + (name.length + lenStr.length + 2) - (0 + 1)) = name ++ ':' :: lenStr := by
    simp only [Nat.zero_add, List.drop_succ_cons, List.drop_zero]
    have h2 : name.length + lenStr.length + 2 - 1 = (name ++ ':' :: lenStr).length := by
      simp
      omega
    rw [h2]
    have : name ++ ':' :: (lenStr ++ '>' :: tail) = (name ++ ':' :: lenStr) ++ '>' :: tail := by
      simp
    rw [this]
    exact List.take_left _ _
  rw [htake]
  have hparts : goPartsOn ':' (name ++ ':' :: lenStr) = [name, lenStr] := by
    rw [goPartsOn_append lenStr hn1, goPartsOn_of_not_mem hl1]
  rw [hparts]
  rw [if_neg (by simp)]
  simp only [List.getD, List.get?, Option.getD_some]
  rw [hL]
  simp only
  have hlen : ('<' :: (name ++ ':' :: (lenStr ++ '>' :: tail))).length =
      name.length + lenStr.length + 3 + tail.length := by
    simp
    omega
  rw [hlen]
  have harith : (((0 + (name.length + lenStr.length + 2) : Nat) : Int) + 1 + L >
      ((name.length + lenStr.length + 3 + tail.length : Nat) : Int)) ↔ (tail.length : Int) < L := by
    push_cast
    omega
  by_cases hc : (tail.length : Int) < L
  · rw [if_pos (harith.mpr hc)]
    rw [if_neg (by push_cast; omega)]
    have hmin : min L.toNat tail.length = tail.length := by omega
    have hv : (('<' :: (name ++ ':' :: (lenStr ++ '>' :: tail))).drop
        (0 + (name.length + lenStr.length + 2) + 1)).take
        (((name.length + lenStr.length + 3 + tail.length : Nat) : Int) -
          (((0 + (name.length + lenStr.length + 2) : Nat) : Int) + 1)).toNat = tail := by
      simp only [Nat.zero_add, List.drop_succ_cons]
      have hd : (name ++ ':' :: (lenStr ++ '>' :: tail)).drop
          (name.length + lenStr.length + 2) = tail := by
        have : name ++ ':' :: (lenStr ++ '>' :: tail) =
            (name ++ ':' :: (lenStr ++ ['>'])) ++ tail := by simp
        rw [this]
        have hlen2 : (name ++ ':' :: (lenStr ++ ['>'])).length =
            name.length + lenStr.length + 2 := by simp; omega
        rw [← hlen2]
        simpa using drop_append_add (name ++ ':' :: (lenStr ++ ['>'])) tail 0
      rw [hd]
      apply List.take_of_length_le
      omega
    rw [hv]
    have hdrop : ('<' :: (name ++ ':' :: (lenStr ++ '>' :: tail))).drop
        ((name.length + lenStr.length + 3 + tail.length : Nat) : Int).toNat = [] := by
      apply List.drop_eq_nil_of_le
      simp
      omega
    rw [hdrop, hmin, List.take_length, List.drop_length]
    rfl
  · rw [if_neg (fun h => hc (harith.mp h))]
    rw [if_neg (by push_cast; omega)]
    have hmin : min L.toNat tail.length = L.toNat := by omega
    have hv : (('<' :: (name ++ ':' :: (lenStr ++ '>' :: tail))).drop
        (0 + (name.length + lenStr.length + 2) + 1)).take
        ((((0 + (name.length + lenStr.length + 2) : Nat) : Int) + 1 + L) -
          (((0 + (name.length + lenStr.length + 2) : Nat) : Int) + 1)).toNat =
        tail.take L.toNat := by
      simp only [Nat.zero_add, List.drop_succ_cons]
      have hd : (name ++ ':' :: (lenStr ++ '>' :: tail)).drop
          (name.length + lenStr.length + 2) = tail := by
        have : name ++ ':' :: (lenStr ++ '>' :: tail) =
            (name ++ ':' :: (lenStr ++ ['>'])) ++ tail := by simp
        rw [this]
        have hlen2 : (name ++ ':' :: (lenStr ++ ['>'])).length =
            name.length + lenStr.length + 2 := by simp; omega
        rw [← hlen2]
        simpa using drop_append_add (name ++ ':' :: (lenStr ++ ['>'])) tail 0
      rw [hd]
      congr 1
      omega
    rw [hv]
    have hdrop : ('<' :: (name ++ ':' :: (lenStr ++ '>' :: tail))).drop
        ((((0 + (name.length + lenStr.length + 2) : Nat) : Int) + 1 + L)).toNat =
        tail.drop L.toNat := by
      have hsplit : ('<' :: (name ++ ':' :: (lenStr ++ '>' :: tail))) =
          ('<' :: (name ++ ':' :: (lenStr ++ ['>']))) ++ tail := by simp
      rw [hsplit]
      have hlen3 : ('<' :: (name ++ ':' :: (lenStr ++ ['>']))).length =
          name.length + lenStr.length + 3 := by simp; omega
      have : ((((0 + (name.length + lenStr.length + 2) : Nat) : Int) + 1 + L)).toNat =
          ('<' :: (name ++ ':' :: (lenStr ++ ['>']))).length + L.toNat := by
        rw [hlen3]
        push_cast
        omega
      rw [this, drop_append_add]
    rw [hdrop, hmin]
    rfl

/-! ### The tokenizer: fuel adequacy and the marker boundary -/

theorem tokenizeLoop_fuel_irrel :
    ∀ (f g : Nat) (s : Str), s.length < f → s.length < g →
      tokenizeLoop f s = tokenizeLoop g s := by
  intro f
  induction f with
  | zero => intro g s hf _; exact absurd hf (by omega)
  | succ f ih =>
    intro g s hf hg
    cases g with
    | zero => exact absurd hg (by omega)
    | succ g =>
      cases hidx : indexOfSub eorChars (toLowerStr s) with
      | none => simp only [tokenizeLoop, hidx]
      | some i =>
        have hinf : eorChars <:+: toLowerStr s := infix_of_indexOfSub hidx
        have hlen : 5 ≤ s.length := by
          have := hinf.length_le
          simpa [toLowerStr, eorChars] using this
        simp only [tokenizeLoop, hidx]
        rw [ih g (s.drop (i + 5))
          (by simp only [List.length_drop]; omega)
          (by simp only [List.length_drop]; omega)]

theorem tokenize_nil : tokenize [] = [] := rfl

/-- A block that ends with a (case-insensitively spelled) end-of-record marker,
with no earlier occurrence of the marker (not even one straddling into the
marker's first four characters), is yielded as one token and scanning resumes
after the marker. -/
theorem tokenize_block (b m post : Str) (hm : toLowerStr m = eorChars)
    (hno : ¬ eorChars <:+: toLowerStr (b ++ m.take 4)) :
    tokenize (b ++ m ++ post) = b :: tokenize post := by
  have hm5 : m.length = 5 := by
    have := congrArg List.length hm
    simpa [toLowerStr, eorChars] using this
  have hidx : indexOfSub eorChars (toLowerStr (b ++ m ++ post)) = some b.length := by
    have hsplit : toLowerStr (b ++ m ++ post) =
        toLowerStr b ++ (toLowerStr m ++ toLowerStr post) := by
      simp [toLowerStr]
    rw [hsplit]
    have hp : eorChars <+: toLowerStr m ++ toLowerStr post := by
      rw [hm]; exact List.prefix_append _ _
    have htk : (toLowerStr m ++ toLowerStr post).take (eorChars.length - 1) =
        toLowerStr (m.take 4) := by
      have : (eorChars : Str).length - 1 = 4 := by decide
      rw [this]
      rw [List.take_append_of_le_length (by simp [toLowerStr]; omega)]
      simp [toLowerStr, List.map_take]
    have hno' : ¬ eorChars <:+: (toLowerStr b ++ (toLowerStr m ++ toLowerStr post).take
        (eorChars.length - 1)) := by
      rw [htk]
      intro h
      exact hno (by simpa [toLowerStr] using h)
    have := @indexOfSub_boundary eorChars (by decide) (toLowerStr b)
      (toLowerStr m ++ toLowerStr post) hp hno'
    rw [this]
    simp [toLowerStr]
  unfold tokenize
  have hlen : (b ++ m ++ post).length = b.length + 5 + post.length := by simp; omega
  have ht : (b ++ m ++ post).take b.length = b := by
    rw [List.append_assoc]
    exact List.take_left _ _
  have hd : (b ++ m ++ post).drop (b.length + 5) = post := by
    rw [List.append_assoc, drop_append_add b (m ++ post) 5, ← hm5]
    simpa using drop_append_add m post 0
  calc tokenizeLoop ((b ++ m ++ post).length + 1) (b ++ m ++ post)
      = b :: tokenizeLoop (b.length + 5 + post.length) post := by
        rw [hlen]
        simp only [tokenizeLoop, hidx]
        rw [ht, hd]
    _ = b :: tokenizeLoop (post.length + 1) post := by
        congr 1
        exact tokenizeLoop_fuel_irrel _ _ post (by omega) (by omega)

/-! ### The record map: overwrite semantics -/

theorem find?_recSet (r : Record) (k v : Str) :
    ((r.filter (fun p => !decide (p.1 = k))) ++ [(k, v)]).find?
      (fun p => decide (p.1 = k)) = some (k, v) := by
  induction r with
  | nil => simp [List.find?]
  | cons p r ih =>
    by_cases hp : p.1 = k
    · simpa [List.filter, hp] using ih
    · simpa [List.filter, hp, List.find?] using ih

/-- Reading back the key just assigned returns the assigned value
(Go map overwrite: the last assignment wins). -/
theorem recGet_recSet (r : Record) (k v : Str) : recGet (recSet r k v) k = v := by
  unfold recGet recSet
  rw [find?_recSet]

/-! ### The confirmed-entity set -/

theorem aggStep_dxcc (st : AggState) (rec : Record) :
    (aggStep st rec).dxccConfirmed =
      if toUpperStr (recGet rec qslRcvdK) = ['Y'] ∧ recHas rec dxccK = true ∧
          recGet rec dxccK ≠ [] then
        setInsert st.dxccConfirmed (recGet rec dxccK)
      else st.dxccConfirmed := by
  unfold aggStep
  by_cases h1 : toUpperStr (recGet rec qslRcvdK) = ['Y'] <;>
    by_cases h2 : recHas rec dxccK = true ∧ recGet rec dxccK ≠ [] <;>
      by_cases h3 : dateBucket rec ≠ [] <;>
        simp [h1, h2, h3]

theorem foldl_agg_dxcc (recs : List Record) :
    ∀ st : AggState,
      (recs.foldl aggStep st).dxccConfirmed =
        (confirmedDxccs recs).foldl setInsert st.dxccConfirmed := by
  induction recs with
  | nil => intro st; rfl
  | cons r recs ih =>
    intro st
    by_cases hr : toUpperStr (recGet r qslRcvdK) = ['Y'] ∧ recHas r dxccK = true ∧
        recGet r dxccK ≠ []
    · have hc : confirmedDxccs (r :: recs) = recGet r dxccK :: confirmedDxccs recs := by
        unfold confirmedDxccs
        rw [List.filter_cons_of_pos (by simpa using hr)]
        rfl
      rw [hc]
      simp only [List.foldl_cons]
      rw [ih, aggStep_dxcc, if_pos hr]
    · have hc : confirmedDxccs (r :: recs) = confirmedDxccs recs := by
        unfold confirmedDxccs
        rw [List.filter_cons_of_neg (by simpa using hr)]
      rw [hc]
      simp only [List.foldl_cons]
      rw [ih, aggStep_dxcc, if_neg hr]

theorem setInsert_nodup {s : List Str} (h : s.Nodup) (k : Str) : (setInsert s k).Nodup := by
  unfold setInsert
  split
  · exact h
  · next hk =>
    rw [List.nodup_append]
    exact ⟨h, List.nodup_singleton k, by simpa using hk⟩

theorem setInsert_toFinset (s : List Str) (k : Str) :
    (setInsert s k).toFinset = insert k s.toFinset := by
  unfold setInsert
  split
  · next hk =>
    have : k ∈ s.toFinset := by simpa using hk
    rw [Finset.insert_eq_self.mpr this]
  · simp [Finset.insert_eq, Finset.union_comm]

theorem setInsert_length (s : List Str) (k : Str) :
    s.length ≤ (setInsert s k).length ∧ (setInsert s k).length ≤ s.length + 1 := by
  unfold setInsert
  split <;> simp

theorem foldl_setInsert_nodup (l : List Str) :
    ∀ {s : List Str}, s.Nodup → (l.foldl setInsert s).Nodup := by
  induction l with
  | nil => intro s h; exact h
  | cons a l ih => intro s h; exact ih (setInsert_nodup h a)

theorem foldl_setInsert_toFinset (l : List Str) :
    ∀ s : List Str, (l.foldl setInsert s).toFinset = s.toFinset ∪ l.toFinset := by
  induction l with
  | nil => intro s; simp
  | cons a l ih =>
    intro s
    simp only [List.foldl_cons, ih, setInsert_toFinset, List.toFinset_cons]
    ext x
    simp [or_comm, or_assoc, or_left_comm]

/-! ### Claim theorems -/

/-- C1: the claim states that `parseRecord` returns a mapping without faulting
for every input, explicitly including tags whose length segment parses as a
negative integer.  The code violates this: on `<A:-1>x` the parsed length is
`-1`, so `dataEnd = 5 < dataStart = 6` passes the (only) clamp check and the Go
slice `input[dataStart:dataEnd]` panics with a bounds error, modelled here by
`none`. -/
theorem parseRecord_negative_length_panics :
    parseRecord ['<', 'A', ':', '-', '1', '>', 'x'] = none := by decide

/-- C4: a tag whose declared non-negative length exceeds the number of
characters remaining after the closing `>` decodes to exactly the remaining
suffix — truncated, never padded — without an out-of-range fault, for any
decoder state, and at top level yields the single-field record. -/
theorem overrun_length_truncates_to_suffix (name lenStr data : Str) (L : Int)
    (hn1 : ':' ∉ name) (hn2 : '>' ∉ name) (hl1 : ':' ∉ lenStr) (hl2 : '>' ∉ lenStr)
    (hL : goAtoi lenStr = some L) (hex : (data.length : Int) < L) :
    (∀ (rec : Record) (fuel : Nat),
      parseRecordLoop (fuel + 1) ('<' :: (name ++ ':' :: (lenStr ++ '>' :: data))) rec =
        some (recSet rec (toUpperStr name) data)) ∧
    parseRecord ('<' :: (name ++ ':' :: (lenStr ++ '>' :: data))) =
      some [(toUpperStr name, data)] ∧
    recGet [(toUpperStr name, data)] (toUpperStr name) = data := by
  have hL0 : 0 ≤ L := le_trans (Int.natCast_nonneg _) (le_of_lt hex)
  have hpart : ∀ (rec : Record) (fuel : Nat),
      parseRecordLoop (fuel + 1) ('<' :: (name ++ ':' :: (lenStr ++ '>' :: data))) rec =
        some (recSet rec (toUpperStr name) data) := by
    intro rec fuel
    have hstep := parseRecordLoop_tag_step name lenStr data rec fuel L hn1 hn2 hl1 hl2 hL hL0
    have hmin : min L.toNat data.length = data.length := by omega
    rw [hmin, List.take_length, List.drop_length] at hstep
    rw [hstep, parseRecordLoop_nil]
  refine ⟨hpart, ?_, ?_⟩
  · exact hpart [] _
  · have := recGet_recSet [] (toUpperStr name) data
    simpa [recSet] using this

/-- C5: a tag whose content has fewer than two `:`-segments or a non-integer
length segment contributes no field, raises no error, and scanning resumes
right after its `>`, so decoding the whole record equals decoding what follows
the tag — all subsequent valid tags are still decoded. -/
theorem invalid_tag_contributes_nothing_and_resumes (t rest : Str)
    (ht : '>' ∉ t)
    (hbad : (goPartsOn ':' t).length < 2 ∨ goAtoi ((goPartsOn ':' t).getD 1 []) = none) :
    (∀ rec : Record,
      parseRecordLoop (('<' :: (t ++ '>' :: rest)).length + 1) ('<' :: (t ++ '>' :: rest)) rec =
        parseRecordLoop (rest.length + 1) rest rec) ∧
    parseRecord ('<' :: (t ++ '>' :: rest)) = parseRecord rest := by
  have hpart : ∀ rec : Record,
      parseRecordLoop (('<' :: (t ++ '>' :: rest)).length + 1) ('<' :: (t ++ '>' :: rest)) rec =
        parseRecordLoop (rest.length + 1) rest rec := by
    intro rec
    rw [parseRecordLoop_skip_step t rest rec _ ht hbad]
    exact parseRecordLoop_fuel_irrel (('<' :: (t ++ '>' :: rest)).length) (rest.length + 1)
      rest rec (by simp; omega) (by omega)
  exact ⟨hpart, hpart []⟩

/-- C10: when the same field name appears in two valid tags of one record, the
decoded record binds the (uppercased) name to the value of the later tag in
scan order — Go map assignment overwrites the earlier value. -/
theorem duplicate_field_last_assignment_wins
    (name lenStr1 v1 lenStr2 v2 : Str) (rec : Record) (fuel : Nat)
    (hn1 : ':' ∉ name) (hn2 : '>' ∉ name)
    (h11 : ':' ∉ lenStr1) (h12 : '>' ∉ lenStr1)
    (h21 : ':' ∉ lenStr2) (h22 : '>' ∉ lenStr2)
    (hL1 : goAtoi lenStr1 = some (v1.length : Int))
    (hL2 : goAtoi lenStr2 = some (v2.length : Int)) :
    parseRecordLoop (fuel + 2)
      ('<' :: (name ++ ':' :: (lenStr1 ++ '>' ::
        (v1 ++ '<' :: (name ++ ':' :: (lenStr2 ++ '>' :: v2)))))) rec =
      some (recSet (recSet rec (toUpperStr name) v1) (toUpperStr name) v2) ∧
    recGet (recSet (recSet rec (toUpperStr name) v1) (toUpperStr name) v2)
      (toUpperStr name) = v2 := by
  constructor
  · have hstep1 := parseRecordLoop_tag_step name lenStr1
      (v1 ++ '<' :: (name ++ ':' :: (lenStr2 ++ '>' :: v2))) rec (fuel + 1)
      (v1.length : Int) hn1 hn2 h11 h12 hL1 (Int.natCast_nonneg _)
    have hmin1 : min (v1.length : Int).toNat
        (v1 ++ '<' :: (name ++ ':' :: (lenStr2 ++ '>' :: v2))).length = v1.length := by
      simp
    rw [hmin1, List.take_left, List.drop_left] at hstep1
    rw [hstep1]
    have hstep2 := parseRecordLoop_tag_step name lenStr2 v2
      (recSet rec (toUpperStr name) v1) fuel (v2.length : Int)
      hn1 hn2 h21 h22 hL2 (Int.natCast_nonneg _)
    have hmin2 : min (v2.length : Int).toNat v2.length = v2.length := by simp
    rw [hmin2, List.take_length, List.drop_length] at hstep2
    rw [hstep2, parseRecordLoop_nil]
  · exact recGet_recSet _ _ _

/-- First occurrence of a five-character lowercase marker in the lowered string
`pre ++ m ++ post`, where `m` spells the marker up to case and the marker does
not occur earlier (not even straddling into `m`'s first four characters). -/
theorem indexOfSub_lower_marker (pat : Str) (h5 : pat.length = 5) (pre m post : Str)
    (hm : toLowerStr m = pat)
    (hno : ¬ pat <:+: toLowerStr (pre ++ m.take 4)) :
    indexOfSub pat (toLowerStr (pre ++ m ++ post)) = some pre.length := by
  have hsplit : toLowerStr (pre ++ m ++ post) =
      toLowerStr pre ++ (toLowerStr m ++ toLowerStr post) := by
    simp [toLowerStr]
  rw [hsplit]
  have hm5 : m.length = 5 := by
    have := congrArg List.length hm
    simpa [toLowerStr, h5] using this
  have hp : pat <+: toLowerStr m ++ toLowerStr post := by
    rw [hm]; exact List.prefix_append _ _
  have htk : (toLowerStr m ++ toLowerStr post).take (pat.length - 1) =
      toLowerStr (m.take 4) := by
    rw [h5]
    rw [List.take_append_of_le_length (by simp [toLowerStr]; omega)]
    simp [toLowerStr, List.map_take]
  have hno' : ¬ pat <:+: (toLowerStr pre ++ (toLowerStr m ++ toLowerStr post).take
      (pat.length - 1)) := by
    rw [htk]
    intro h
    exact hno (by simpa [toLowerStr] using h)
  have := @indexOfSub_boundary pat (by intro h; rw [h] at h5; simp at h5)
    (toLowerStr pre) (toLowerStr m ++ toLowerStr post) hp hno'
  rw [this]
  simp [toLowerStr]

/-- C3: for a well-formed stream — a concatenation of N blocks, each terminated
by one case-insensitively spelled end-of-record marker, with no other marker
occurrence (not even straddling a block/marker boundary) — the split-function
tokenizer yields exactly the N blocks, in particular exactly N tokens, and no
yielded token contains the marker. -/
theorem tokenizer_yields_one_token_per_marker (pieces : List (Str × Str))
    (h : ∀ p ∈ pieces, toLowerStr p.2 = eorChars ∧
      ¬ eorChars <:+: toLowerStr (p.1 ++ p.2.take 4)) :
    tokenize (joinBlocks pieces) = pieces.map Prod.fst ∧
    (tokenize (joinBlocks pieces)).length = pieces.length ∧
    ∀ b ∈ pieces.map Prod.fst, ¬ eorChars <:+: toLowerStr b := by
  induction pieces with
  | nil => exact ⟨rfl, rfl, by simp⟩
  | cons p ps ih =>
    obtain ⟨hm, hno⟩ := h p (List.mem_cons_self p ps)
    have hrest := ih (fun q hq => h q (List.mem_cons_of_mem p hq))
    have hb : tokenize (joinBlocks (p :: ps)) = p.1 :: tokenize (joinBlocks ps) := by
      show tokenize (p.1 ++ p.2 ++ joinBlocks ps) = _
      exact tokenize_block p.1 p.2 (joinBlocks ps) hm hno
    refine ⟨?_, ?_, ?_⟩
    · rw [hb, hrest.1]
      rfl
    · rw [hb]
      simp only [List.length_cons, hrest.2.1]
    · intro b hbmem
      rw [List.map_cons] at hbmem
      rcases List.mem_cons.mp hbmem with hb1 | hbm
      · rw [hb1]
        intro hinf
        apply hno
        have hpre : toLowerStr p.1 <+: toLowerStr (p.1 ++ p.2.take 4) := by
          simp only [toLowerStr, List.map_append]
          exact List.prefix_append _ _
        exact hinf.trans hpre.isInfix
      · exact hrest.2.2 b hbm

/-- C6: a fragment containing the case-insensitively spelled end-of-header
marker (first occurrence right after `pre`, wherever that is in the fragment)
is stripped of everything up to and including the marker; a fragment without
the marker passes through unchanged. -/
theorem header_stripped_at_marker :
    (∀ pre m post : Str, toLowerStr m = eohChars →
      ¬ eohChars <:+: toLowerStr (pre ++ m.take 4) →
      stripEOH (pre ++ m ++ post) = post) ∧
    (∀ t : Str, ¬ eohChars <:+: toLowerStr t → stripEOH t = t) := by
  constructor
  · intro pre m post hm hno
    have hm5 : m.length = 5 := by
      have := congrArg List.length hm
      simpa [toLowerStr, eohChars] using this
    have hidx := indexOfSub_lower_marker eohChars (by decide) pre m post hm hno
    simp only [stripEOH, hidx]
    rw [List.append_assoc, drop_append_add pre (m ++ post) 5, ← hm5]
    simpa using drop_append_add m post 0
  · intro t hninf
    unfold stripEOH
    rw [indexOfSub_none_of_absent (by
      intro h
      exact hninf (by simpa [toLowerStr] using h))]

/-- C2: a fetch cycle failing at the fetch, body-read or parse stage leaves the
previously published per-(band, mode) totals, confirmed totals, entity count
and daily history completely unchanged, while the success gauge is set to 0 and
the duration gauge is updated. -/
theorem failed_cycle_preserves_previous_snapshot (st : MetricsState) (inp : FetchInput)
    (duration now : Int)
    (h : inp = FetchInput.fetchErr ∨ inp = FetchInput.readErr ∨ inp = FetchInput.parseErr) :
    ∃ st', fetch st inp duration now = some st' ∧
      st'.qsoTotal = st.qsoTotal ∧ st'.qslTotal = st.qslTotal ∧
      st'.dxccCount = st.dxccCount ∧ st'.qsoHistory = st.qsoHistory ∧
      st'.scrapeSuccess = 0 ∧ st'.scrapeDuration = duration := by
  rcases h with rfl | rfl | rfl <;> exact ⟨_, rfl, rfl, rfl, rfl, rfl, rfl, rfl⟩

/-- C7: the date bucket of a record is the first ten characters of
`APP_LOTW_QSO_TIMESTAMP` when that field is present with at least ten
characters; otherwise the eight-character `QSO_DATE` reformatted from
`YYYYMMDD` to `YYYY-MM-DD`; otherwise the record is bucket-less and leaves the
daily counters untouched. -/
theorem date_bucket_selection (rec : Record) (st : AggState) :
    (recHas rec tsK = true ∧ 10 ≤ (recGet rec tsK).length →
      dateBucket rec = (recGet rec tsK).take 10) ∧
    (¬ (recHas rec tsK = true ∧ 10 ≤ (recGet rec tsK).length) →
      (recGet rec qsoDateK).length = 8 →
      dateBucket rec = (recGet rec qsoDateK).take 4 ++ '-' ::
        ((recGet rec qsoDateK).drop 4).take 2 ++ '-' ::
        ((recGet rec qsoDateK).drop 6).take 2) ∧
    (¬ (recHas rec tsK = true ∧ 10 ≤ (recGet rec tsK).length) →
      (recGet rec qsoDateK).length ≠ 8 →
      dateBucket rec = [] ∧ (aggStep st rec).dateCounts = st.dateCounts) := by
  refine ⟨?_, ?_, ?_⟩
  · intro h
    unfold dateBucket
    rw [if_pos h]
  · intro h h8
    unfold dateBucket
    rw [if_neg h]
    simp [h8]
  · intro h h8
    have hd : dateBucket rec = [] := by
      unfold dateBucket
      rw [if_neg h]
      simp [h8]
    refine ⟨hd, ?_⟩
    unfold aggStep
    simp only [hd]
    by_cases h1 : toUpperStr (recGet rec qslRcvdK) = ['Y'] <;> simp [h1]

/-- C8: the distinct-confirmed-entity count equals the cardinality of the set
of non-empty `DXCC` values over records whose `QSL_RCVD` uppercases to `Y`;
one more record raises the count by at most one and never lowers it (so
repeated `DXCC` values are not double-counted). -/
theorem confirmed_entity_count_is_set_card :
    (∀ recs : List Record,
      ((recs.foldl aggStep aggInit).dxccConfirmed).length =
        (confirmedDxccs recs).toFinset.card) ∧
    (∀ (recs : List Record) (r : Record),
      ((recs.foldl aggStep aggInit).dxccConfirmed).length ≤
        (((recs ++ [r]).foldl aggStep aggInit).dxccConfirmed).length ∧
      (((recs ++ [r]).foldl aggStep aggInit).dxccConfirmed).length ≤
        ((recs.foldl aggStep aggInit).dxccConfirmed).length + 1) := by
  have hfold : ∀ recs : List Record,
      (recs.foldl aggStep aggInit).dxccConfirmed =
        (confirmedDxccs recs).foldl setInsert [] := by
    intro recs
    exact foldl_agg_dxcc recs aggInit
  constructor
  · intro recs
    rw [hfold]
    have hnd : ((confirmedDxccs recs).foldl setInsert []).Nodup :=
      foldl_setInsert_nodup (confirmedDxccs recs) List.nodup_nil
    have htf : ((confirmedDxccs recs).foldl setInsert []).toFinset =
        (confirmedDxccs recs).toFinset := by
      rw [foldl_setInsert_toFinset]
      simp
    rw [← List.toFinset_card_of_nodup hnd, htf]
  · intro recs r
    rw [hfold, hfold]
    have happ : confirmedDxccs (recs ++ [r]) =
        confirmedDxccs recs ++ confirmedDxccs [r] := by
      unfold confirmedDxccs
      rw [List.filter_append, List.map_append]
    rw [happ, List.foldl_append]
    by_cases hr : toUpperStr (recGet r qslRcvdK) = ['Y'] ∧ recHas r dxccK = true ∧
        recGet r dxccK ≠ []
    · have hone : confirmedDxccs [r] = [recGet r dxccK] := by
        unfold confirmedDxccs
        rw [List.filter_cons_of_pos (by simpa using hr)]
        rfl
      rw [hone]
      simpa using setInsert_length ((confirmedDxccs recs).foldl setInsert [])
        (recGet r dxccK)
    · have hzero : confirmedDxccs [r] = [] := by
        unfold confirmedDxccs
        rw [List.filter_cons_of_neg (by simpa using hr)]
        rfl
      rw [hzero]
      simp

/-- C9: an empty input stream (zero records) produces a snapshot with all
aggregate maps empty and distinct-entity count 0, published as a success
(success gauge 1, timestamp updated), not treated as a failure. -/
theorem empty_stream_publishes_empty_success (st : MetricsState) (duration now : Int) :
    fetch st (FetchInput.ok []) duration now =
      some ⟨[], [], [], 0, duration, 1, now⟩ := rfl

/-! ### Witnesses: the claim theorems applied at concrete inputs -/

theorem failed_cycle_preserves_previous_snapshot_witness :
    (FetchInput.fetchErr = FetchInput.fetchErr ∨ FetchInput.fetchErr = FetchInput.readErr ∨
      FetchInput.fetchErr = FetchInput.parseErr) ∧
    ∃ st', fetch ⟨[((['2', '0'], ['C', 'W']), 4)], [], [], 2, 0, 1, 7⟩
        FetchInput.fetchErr 3 9 = some st' ∧
      st'.qsoTotal = [((['2', '0'], ['C', 'W']), 4)] ∧ st'.qslTotal = [] ∧
      st'.dxccCount = 2 ∧ st'.qsoHistory = [] ∧
      st'.scrapeSuccess = 0 ∧ st'.scrapeDuration = 3 :=
  ⟨Or.inl rfl,
    failed_cycle_preserves_previous_snapshot
      ⟨[((['2', '0'], ['C', 'W']), 4)], [], [], 2, 0, 1, 7⟩
      FetchInput.fetchErr 3 9 (Or.inl rfl)⟩

theorem tokenizer_yields_one_token_per_marker_witness :
    (∀ p ∈ ([(['a'], ['<', 'E', 'o', 'R', '>']),
        (['b', 'c'], ['<', 'e', 'o', 'r', '>'])] : List (Str × Str)),
      toLowerStr p.2 = eorChars ∧ ¬ eorChars <:+: toLowerStr (p.1 ++ p.2.take 4)) ∧
    tokenize (joinBlocks [(['a'], ['<', 'E', 'o', 'R', '>']),
        (['b', 'c'], ['<', 'e', 'o', 'r', '>'])]) = [['a'], ['b', 'c']] := by
  refine ⟨by decide, ?_⟩
  exact (tokenizer_yields_one_token_per_marker
    [(['a'], ['<', 'E', 'o', 'R', '>']), (['b', 'c'], ['<', 'e', 'o', 'r', '>'])]
    (by decide)).1

theorem overrun_length_truncates_to_suffix_witness :
    (':' ∉ (['b'] : Str)) ∧ ('>' ∉ (['b'] : Str)) ∧ (':' ∉ (['5'] : Str)) ∧
    ('>' ∉ (['5'] : Str)) ∧ goAtoi ['5'] = some 5 ∧
    (((['x', 'y'] : Str).length : Int) < 5) ∧
    parseRecord ('<' :: ((['b'] : Str) ++ ':' :: ((['5'] : Str) ++ '>' :: ['x', 'y']))) =
      some [(toUpperStr ['b'], ['x', 'y'])] := by
  refine ⟨by decide, by decide, by decide, by decide, by decide, by decide, ?_⟩
  exact (overrun_length_truncates_to_suffix ['b'] ['5'] ['x', 'y'] 5 (by decide) (by decide)
    (by decide) (by decide) (by decide) (by decide)).2.1

theorem invalid_tag_contributes_nothing_and_resumes_witness :
    ('>' ∉ (['j'] : Str)) ∧ (goPartsOn ':' ['j']).length < 2 ∧
    parseRecord ('<' :: ((['j'] : Str) ++ '>' ::
        ('<' :: ((['b'] : Str) ++ ':' :: ((['1'] : Str) ++ '>' :: ['z']))))) =
      parseRecord ('<' :: ((['b'] : Str) ++ ':' :: ((['1'] : Str) ++ '>' :: ['z']))) := by
  refine ⟨by decide, by decide, ?_⟩
  exact (invalid_tag_contributes_nothing_and_resumes ['j']
    ('<' :: ((['b'] : Str) ++ ':' :: ((['1'] : Str) ++ '>' :: ['z'])))
    (by decide) (Or.inl (by decide))).2

theorem header_stripped_at_marker_witness :
    (toLowerStr ['<', 'E', 'O', 'H', '>'] = eohChars) ∧
    (¬ eohChars <:+: toLowerStr ((['h', 'i'] : Str) ++
      (['<', 'E', 'O', 'H', '>'] : Str).take 4)) ∧
    stripEOH (['h', 'i'] ++ ['<', 'E', 'O', 'H', '>'] ++ ['r']) = ['r'] ∧
    (¬ eohChars <:+: toLowerStr (['a', 'b'] : Str)) ∧
    stripEOH ['a', 'b'] = ['a', 'b'] := by
  refine ⟨by decide, by decide, ?_, by decide, ?_⟩
  · exact header_stripped_at_marker.1 ['h', 'i'] ['<', 'E', 'O', 'H', '>'] ['r']
      (by decide) (by decide)
  · exact header_stripped_at_marker.2 ['a', 'b'] (by decide)

theorem date_bucket_selection_witness :
    (recHas [(tsK, ['2', '0', '2', '5', '-', '1', '2', '-', '1', '0'])] tsK = true ∧
      10 ≤ (recGet [(tsK, ['2', '0', '2', '5', '-', '1', '2', '-', '1', '0'])] tsK).length) ∧
    dateBucket [(tsK, ['2', '0', '2', '5', '-', '1', '2', '-', '1', '0'])] =
      (recGet [(tsK, ['2', '0', '2', '5', '-', '1', '2', '-', '1', '0'])] tsK).take 10 := by
  refine ⟨by decide, ?_⟩
  exact (date_bucket_selection [(tsK, ['2', '0', '2', '5', '-', '1', '2', '-', '1', '0'])]
    aggInit).1 (by decide)

theorem duplicate_field_last_assignment_wins_witness :
    (':' ∉ (['b'] : Str)) ∧ goAtoi ['1'] = some ((['x'] : Str).length : Int) ∧
    parseRecordLoop 2 ('<' :: ((['b'] : Str) ++ ':' :: ((['1'] : Str) ++ '>' ::
        (['x'] ++ '<' :: ((['b'] : Str) ++ ':' :: ((['1'] : Str) ++ '>' :: ['y'])))))) [] =
      some (recSet (recSet [] (toUpperStr ['b']) ['x']) (toUpperStr ['b']) ['y']) ∧
    recGet (recSet (recSet [] (toUpperStr ['b']) ['x']) (toUpperStr ['b']) ['y'])
      (toUpperStr ['b']) = ['y'] := by
  refine ⟨by decide, by decide, ?_, ?_⟩
  · exact (duplicate_field_last_assignment_wins ['b'] ['1'] ['x'] ['1'] ['y'] [] 0
      (by decide) (by decide) (by decide) (by decide) (by decide) (by decide)
      (by decide) (by decide)).1
  · exact (duplicate_field_last_assignment_wins ['b'] ['1'] ['x'] ['1'] ['y'] [] 0
      (by decide) (by decide) (by decide) (by decide) (by decide) (by decide)
      (by decide) (by decide)).2
